import Mathlib

/-!
# sigctx: a context canceled by OS signals

A shallow embedding of `sigctx.go`.  The wrapper `signalCtx`, its methods
`Done`, `Err`, `cancel`, `watch` and the constructor `WithCancelBySignal`
are translated statement by statement into a small state-and-failure monad
over an explicit process state:

* channels are addresses in a heap that records which of them are closed;
* `sync.Mutex` is a boolean (`Lock` on a held mutex blocks, `Unlock` on a
  free mutex is fatal);
* `os/signal` is a table of (channel, signal) subscriptions;
* the derived `context.WithCancel` context is its `Err()` value, its done
  channel being closed exactly when that value is non-nil;
* every guarded access and every effect is appended to a trace.
-/

namespace Sigctx

/-! ## Values -/

/-- Address of a channel object. -/
abbrev Addr := Nat

/-- Go channel value: `none` is the nil channel. -/
abbrev chan := Option Addr

/-- Signal number standing for an `os.Signal`. -/
abbrev Signal := Nat

/-- Non-nil Go error values, compared by identity. -/
inductive GoError where
  | signalReceived
  | canceled
  | deadlineExceeded
  | other (id : Nat)
  deriving DecidableEq, Repr

/-- Go `error` interface value: `none` is nil. -/
abbrev error := Option GoError

/-- Source: `var SignalReceived error = errors.New("signal received")`. -/
def SignalReceived : error := some GoError.signalReceived

/-- Run-time panics that the modelled statements can raise. -/
inductive Panic where
  | missingCancelError
  | closeOfNilChannel
  | closeOfClosedChannel
  | unlockOfUnlockedMutex
  | nilParent
  | notifyNilChannel
  deriving DecidableEq, Repr

/-! ## Process-wide runtime: channel heap and signal table -/

/-- Channel heap and `os/signal` subscription table. -/
structure Runtime where
  next : Addr
  closed : List Addr
  handlers : List (Addr × Signal)
  deriving DecidableEq, Repr

/-- Number of signals known to `os/signal` (`numSig`). -/
def numSig : Nat := 65

/-- Signal list meant by a variadic `sig ...os.Signal`: none given means all. -/
def expand (sig : List Signal) : List Signal :=
  if sig.isEmpty then List.range numSig else sig

/-- Allocation `make(chan T)`: a fresh, open channel. -/
def Runtime.make (rt : Runtime) : Addr × Runtime :=
  (rt.next, { rt with next := rt.next + 1 })

/-- Builtin `close(d)`: panics on a nil or an already closed channel. -/
def Runtime.close (d : chan) (rt : Runtime) : Except Panic Runtime :=
  match d with
  | none => .error .closeOfNilChannel
  | some a =>
    if a ∈ rt.closed then .error .closeOfClosedChannel
    else .ok { rt with closed := a :: rt.closed }

/-- Library call `signal.Notify(c, sig...)`: subscribe `c` to the signals. -/
def Runtime.Notify (c : chan) (sig : List Signal) (rt : Runtime) : Except Panic Runtime :=
  match c with
  | none => .error .notifyNilChannel
  | some a => .ok { rt with handlers := rt.handlers ++ (expand sig).map (fun s => (a, s)) }

/-- Library call `signal.Reset(sig...)`: drop every subscription to the signals. -/
def Runtime.Reset (sig : List Signal) (rt : Runtime) : Runtime :=
  { rt with handlers := rt.handlers.filter (fun p => decide (p.2 ∉ expand sig)) }

/-- Process state before the package is initialised. -/
def Runtime.boot : Runtime := { next := 0, closed := [], handlers := [] }

/-- Source: `var closedchan = make(chan struct{})`, a reusable closed channel. -/
def closedchan : chan := some Runtime.boot.make.1

/-- Source: `func init() { close(closedchan) }`. -/
def init : Except Panic Runtime := Runtime.boot.make.2.close closedchan

/-- Runtime right after package initialisation. -/
def pkgInit : Runtime := { next := 1, closed := [0], handlers := [] }

/-! ## The wrapper -/

/-- Context of package `context` seen through its `Err()`; its `Done()` channel
is closed exactly when `err` is non-nil. -/
structure Ctx where
  err : error
  deriving DecidableEq, Repr

/-- Source: `type signalCtx struct`.  The field `ctxCancel` is the cancel
function of `Context`; it is the function `cancelFunc` below. -/
structure signalCtx where
  Context : Ctx
  sig : List Signal
  ch : chan
  mu : Bool
  done : chan
  err : error
  deriving DecidableEq, Repr

/-- Observable actions of the wrapper's methods, in program order. -/
inductive Event where
  | lock
  | unlock
  | readDone
  | writeDone (d : chan)
  | readErr
  | writeErr (e : error)
  | make (a : Addr)
  | close (d : chan)
  | reset (sig : List Signal)
  | ctxCancel
  | select
  deriving DecidableEq, Repr

/-- One wrapper instance inside its process. -/
structure World where
  rt : Runtime
  c : signalCtx
  trace : List Event
  watcher : Bool
  deriving DecidableEq, Repr

/-- Outcome of running a method: normal return, panic, or blocked forever. -/
inductive Result (α : Type) where
  | ok (a : α) (w : World)
  | panic (p : Panic) (w : World)
  | block (w : World)
  deriving DecidableEq, Repr

/-- World in which an outcome leaves the process. -/
def Result.world {α : Type} : Result α → World
  | .ok _ w => w
  | .panic _ w => w
  | .block w => w

/-- Computations of the wrapper's methods. -/
def M (α : Type) : Type := World → Result α

/-- Sequencing: a panic or a block ends the computation. -/
def M.bind {α β : Type} (m : M α) (f : α → M β) : M β := fun w =>
  match m w with
  | .ok a w1 => f a w1
  | .panic p w1 => .panic p w1
  | .block w1 => .block w1

instance : Monad M where
  pure a := fun w => .ok a w
  bind := M.bind

/-- Append an event to the trace. -/
def World.emit (w : World) (e : Event) : World := { w with trace := w.trace ++ [e] }

/-- Statement `panic(...)`. -/
def panic {α : Type} (p : Panic) : M α := fun w => .panic p w

/-- Call `c.mu.Lock()`. -/
def mu_Lock : M Unit := fun w =>
  if w.c.mu then .block w
  else .ok () ({ w with c := { w.c with mu := true } }.emit .lock)

/-- Call `c.mu.Unlock()`. -/
def mu_Unlock : M Unit := fun w =>
  if w.c.mu then .ok () ({ w with c := { w.c with mu := false } }.emit .unlock)
  else .panic .unlockOfUnlockedMutex w

/-- Read of `c.done`. -/
def get_done : M chan := fun w => .ok w.c.done (w.emit .readDone)

/-- Assignment `c.done = d`. -/
def set_done (d : chan) : M Unit := fun w =>
  .ok () ({ w with c := { w.c with done := d } }.emit (.writeDone d))

/-- Read of `c.err`. -/
def get_err : M error := fun w => .ok w.c.err (w.emit .readErr)

/-- Assignment `c.err = e`. -/
def set_err (e : error) : M Unit := fun w =>
  .ok () ({ w with c := { w.c with err := e } }.emit (.writeErr e))

/-- Read of a field that is fixed at construction (`c.sig`, `c.ch`). -/
def read {α : Type} (f : signalCtx → α) : M α := fun w => .ok (f w.c) w

/-- Expression `make(chan struct{})`. -/
def make : M chan := fun w =>
  let r := w.rt.make
  .ok (some r.1) ({ w with rt := r.2 }.emit (.make r.1))

/-- Statement `close(d)`. -/
def close (d : chan) : M Unit := fun w =>
  match w.rt.close d with
  | .error p => .panic p w
  | .ok rt => .ok () ({ w with rt := rt }.emit (.close d))

/-- Call `signal.Reset(sig...)`. -/
def signal_Reset (sig : List Signal) : M Unit := fun w =>
  .ok () ({ w with rt := w.rt.Reset sig }.emit (.reset sig))

/-- Cancel function returned by `context.WithCancel`: the first call records
`context.Canceled`, later calls do nothing. -/
def cancelFunc (x : Ctx) : Ctx :=
  match x.err with
  | none => { x with err := some GoError.canceled }
  | some _ => x

/-- Call `c.ctxCancel()` made by a method of the wrapper. -/
def ctxCancel : M Unit := fun w =>
  .ok () ({ w with c := { w.c with Context := cancelFunc w.c.Context } }.emit .ctxCancel)

/-- Call `c.Context.Err()`. -/
def Context_Err : M error := fun w => .ok w.c.Context.err w

/-- Source: `func (c *signalCtx) Done() <-chan struct{}`. -/
def signalCtx.Done : M chan := do
  mu_Lock
  if (← get_done) = none then
    set_done (← make)
  let d ← get_done
  mu_Unlock
  return d

/-- Source: `func (c *signalCtx) Err() error`. -/
def signalCtx.Err : M error := do
  mu_Lock
  let err ← get_err
  mu_Unlock
  return err

/-- Source: `func (c *signalCtx) cancel(err error)`. -/
def signalCtx.cancel (err : error) : M Unit := do
  if err = none then
    panic .missingCancelError
  mu_Lock
  if (← get_err) ≠ none then
    mu_Unlock
    return -- already canceled
  set_err err
  if (← get_done) = none then
    set_done closedchan
  else
    close (← get_done)
  signal_Reset (← read (·.sig))
  close (← read (·.ch))
  mu_Unlock

/-- Case of the `select` in `watch` that is taken: the derived context is
done, or a receive from `c.ch` (of signal `s`) completes. -/
inductive SelectCase where
  | ctxDone
  | sigRecv (s : Signal)
  deriving DecidableEq, Repr

/-- Readiness of a `select` case: `c.Context.Done()` is closed; or `c.ch` is
closed, or the dispatcher sends a signal that `c.ch` is subscribed to. -/
def SelectCase.ready (w : World) : SelectCase → Bool
  | .ctxDone => w.c.Context.err.isSome
  | .sigRecv s =>
    match w.c.ch with
    | none => false
    | some a => decide (a ∈ w.rt.closed) || decide ((a, s) ∈ w.rt.handlers)

/-- Error that `watch` passes to `cancel` on each case of its `select`, given
the derived context: `c.Context.Err()` or `SignalReceived`. -/
def SelectCase.cause (x : Ctx) : SelectCase → error
  | .ctxDone => x.err
  | .sigRecv _ => SignalReceived

/-- Statement `select`, resolved to case `k`; blocks while `k` is not ready. -/
def select (k : SelectCase) : M Unit := fun w =>
  if k.ready w then .ok () (w.emit .select) else .block w

/-- Source: `func (c *signalCtx) watch()`. -/
def signalCtx.watch (k : SelectCase) : M Unit := do
  select k
  match k with
  | .ctxDone =>
    signalCtx.cancel (← Context_Err)
  | .sigRecv _ =>
    ctxCancel
    signalCtx.cancel SignalReceived

/-- Library call `context.WithCancel(parent)`: panics on a nil parent; a parent
that is already done cancels the child with the parent's error. -/
def WithCancel (parent : Option Ctx) : Except Panic Ctx :=
  match parent with
  | none => .error .nilParent
  | some p => .ok { err := p.err }

/-- Source: `func WithCancelBySignal(parent context.Context, sig ...os.Signal)`.
The result is the world holding the new wrapper; the returned cancel function
is `cancelFunc` applied to the wrapper's `Context`. -/
def WithCancelBySignal (parent : Option Ctx) (sig : List Signal) (rt : Runtime) :
    Except Panic World :=
  match WithCancel parent with
  | .error p => .error p
  | .ok wrap =>
    let r := rt.make
    let c : signalCtx :=
      { Context := wrap, sig := sig, ch := some r.1, mu := false, done := none, err := none }
    match r.2.Notify c.ch sig with
    | .error p => .error p
    | .ok rt1 => .ok { rt := rt1, c := c, trace := [], watcher := true }

/-! ## Runs -/

/-- Things that can happen to a wrapper: calls of its methods, the watcher
goroutine passing its `select`, the caller invoking the returned cancel
function, and the parent context finishing with a cause. -/
inductive Op where
  | Done
  | Err
  | cancel (err : error)
  | watch (k : SelectCase)
  | cancelFunc
  | parentDone (e : GoError)
  deriving DecidableEq, Repr

/-- One operation applied to a world. -/
def step (op : Op) (w : World) : World :=
  match op with
  | .Done => (signalCtx.Done w).world
  | .Err => (signalCtx.Err w).world
  | .cancel e => (signalCtx.cancel e w).world
  | .watch k =>
    if w.watcher then
      match signalCtx.watch k w with
      | .ok _ w1 => { w1 with watcher := false }
      | .panic _ w1 => { w1 with watcher := false }
      | .block _ => w
    else w
  | .cancelFunc => { w with c := { w.c with Context := cancelFunc w.c.Context } }
  | .parentDone e =>
    match w.c.Context.err with
    | none => { w with c := { w.c with Context := { err := some e } } }
    | some _ => w

/-- Operations applied in order. -/
def run (ops : List Op) (w : World) : World := ops.foldl (fun w op => step op w) w

/-- Operations other than a direct call of the internal `cancel`. -/
def Op.external : Op → Bool
  | .cancel _ => false
  | _ => true

/-- Runtimes of a process in which the package is initialised: `closedchan` is
closed, and every channel that is closed or subscribed has been allocated. -/
def Runtime.WF (rt : Runtime) : Prop :=
  0 ∈ rt.closed ∧ (∀ a ∈ rt.closed, a < rt.next) ∧ (∀ p ∈ rt.handlers, p.1 < rt.next)

/-- Worlds that arise from a fresh wrapper by some sequence of operations. -/
def Reachable (w : World) : Prop :=
  ∃ rt parent sig ops w0, rt.WF ∧ WithCancelBySignal parent sig rt = .ok w0 ∧ run ops w0 = w

/-- Worlds that arise from a fresh wrapper when `cancel` is reached only through
the watcher, as it is from outside the package. -/
def ReachableExternally (w : World) : Prop :=
  ∃ rt parent sig ops w0, rt.WF ∧ WithCancelBySignal parent sig rt = .ok w0 ∧
    (∀ op ∈ ops, Op.external op = true) ∧ run ops w0 = w

/-- Fresh wrapper over a live parent, subscribed to signal 2. -/
def fresh : World :=
  { rt := { next := 2, closed := [0], handlers := [(1, 2)] },
    c := { Context := { err := none }, sig := [2], ch := some 1, mu := false,
           done := none, err := none },
    trace := [], watcher := true }

/-! ## Observations on worlds and traces -/

/-- Whether the done handle of the wrapper exists and is closed. -/
def doneClosed (w : World) : Bool :=
  match w.c.done with
  | none => false
  | some d => decide (d ∈ w.rt.closed)

/-- Whether the signal channel of the wrapper is closed. -/
def chClosed (w : World) : Bool :=
  match w.c.ch with
  | none => false
  | some a => decide (a ∈ w.rt.closed)

/-- Whether the signal table still holds a subscription of the signal channel. -/
def subscribed (w : World) : Bool :=
  match w.c.ch with
  | none => false
  | some a => w.rt.handlers.any (fun p => p.1 == a)

/-- Effects that face the operating system: resetting signal handling and
closing the channel `ch` that the signal dispatcher sends to. -/
def isOSEffect (ch : chan) : Event → Bool
  | .reset _ => true
  | .close d => d == ch
  | _ => false

/-- Operating-system-facing effects of a trace, in order. -/
def osEffects (ch : chan) (t : List Event) : List Event := t.filter (isOSEffect ch)

/-- Mutex state after an event, or `none` when the event breaks the lock
discipline: locking twice, unlocking a free mutex, touching `done` or `err`
without the mutex, or entering `select` with the mutex held. -/
def lockStep (held : Bool) : Event → Option Bool
  | .lock => if held then none else some true
  | .unlock => if held then some false else none
  | .readDone => if held then some held else none
  | .writeDone _ => if held then some held else none
  | .readErr => if held then some held else none
  | .writeErr _ => if held then some held else none
  | .select => if held then none else some held
  | _ => some held

/-- A trace that keeps the lock discipline and ends with the mutex free. -/
def disciplined (held : Bool) : List Event → Bool
  | [] => !held
  | e :: t =>
    match lockStep held e with
    | none => false
    | some h => disciplined h t

/-- Number of `Lock` calls in a trace. -/
def lockCount : List Event → Nat
  | [] => 0
  | .lock :: t => lockCount t + 1
  | _ :: t => lockCount t

/-- Number of `Unlock` calls in a trace. -/
def unlockCount : List Event → Nat
  | [] => 0
  | .unlock :: t => unlockCount t + 1
  | _ :: t => unlockCount t

/-- Number of calls of `c.ctxCancel()` in a trace. -/
def ctxCancelCount : List Event → Nat
  | [] => 0
  | .ctxCancel :: t => ctxCancelCount t + 1
  | _ :: t => ctxCancelCount t

/-- Events that a step appended to the trace of `w0`. -/
def newEvents (w0 w1 : World) : List Event := w1.trace.drop w0.trace.length

/-- Calls `cancel(e)` for each error of the list, in order. -/
def cancelAll : List GoError → M Unit
  | [] => pure ()
  | e :: es => do
    signalCtx.cancel (some e)
    cancelAll es

/-- World after `cancel(e)` with a non-nil `e`, written out. -/
def cancelPost (e : GoError) (w : World) : World :=
  match w.c.err with
  | some _ => { w with trace := w.trace ++ [.lock, .readErr, .unlock] }
  | none =>
    match w.c.done with
    | none =>
      { w with rt := { (w.rt.Reset w.c.sig) with closed := w.c.ch.toList ++ w.rt.closed },
               c := { w.c with err := some e, done := closedchan },
               trace := w.trace ++ [.lock, .readErr, .writeErr (some e), .readDone,
                 .writeDone closedchan, .reset w.c.sig, .close w.c.ch, .unlock] }
    | some d =>
      { w with rt := { (w.rt.Reset w.c.sig) with closed := w.c.ch.toList ++ d :: w.rt.closed },
               c := { w.c with err := some e },
               trace := w.trace ++ [.lock, .readErr, .writeErr (some e), .readDone,
                 .readDone, .close (some d), .reset w.c.sig, .close w.c.ch, .unlock] }

/-- World after `Done()`, written out. -/
def DonePost (w : World) : World :=
  match w.c.done with
  | none =>
    { w with rt := { w.rt with next := w.rt.next + 1 },
             c := { w.c with done := some w.rt.next },
             trace := w.trace ++ [.lock, .readDone, .make w.rt.next,
               .writeDone (some w.rt.next), .readDone, .unlock] }
  | some _ => { w with trace := w.trace ++ [.lock, .readDone, .readDone, .unlock] }

/-- Invariant of the worlds that arise from a fresh wrapper. -/
structure Inv (w : World) : Prop where
  mu : w.c.mu = false
  cc : 0 ∈ w.rt.closed
  closed_lt : ∀ a ∈ w.rt.closed, a < w.rt.next
  ch : ∃ a, w.c.ch = some a ∧ a ≠ 0 ∧ a < w.rt.next ∧ w.c.done ≠ some a
  done_lt : ∀ d, w.c.done = some d → d < w.rt.next
  live : w.c.err = none →
    (∀ d, w.c.done = some d → d ∉ w.rt.closed) ∧ (∀ a, w.c.ch = some a → a ∉ w.rt.closed)
  dead : ∀ e, w.c.err = some e →
    (∃ d, w.c.done = some d ∧ d ∈ w.rt.closed) ∧
    (∀ a, w.c.ch = some a → a ∈ w.rt.closed ∧ ∀ s, (a, s) ∉ w.rt.handlers)
  subs : ∀ a s, w.c.ch = some a → (a, s) ∈ w.rt.handlers → s ∈ expand w.c.sig
  eff : osEffects w.c.ch w.trace
    = if w.c.err = none then [] else [.reset w.c.sig, .close w.c.ch]

/-- Events that `cancel(e)` with a non-nil `e` appends, written out. -/
def cancelEvents (e : GoError) (c : signalCtx) : List Event :=
  match c.err with
  | some _ => [.lock, .readErr, .unlock]
  | none =>
    match c.done with
    | none => [.lock, .readErr, .writeErr (some e), .readDone, .writeDone closedchan,
        .reset c.sig, .close c.ch, .unlock]
    | some d => [.lock, .readErr, .writeErr (some e), .readDone, .readDone, .close (some d),
        .reset c.sig, .close c.ch, .unlock]

/-- Events that `Done()` appends, written out. -/
def DoneEvents (w : World) : List Event :=
  match w.c.done with
  | none => [.lock, .readDone, .make w.rt.next, .writeDone (some w.rt.next), .readDone, .unlock]
  | some _ => [.lock, .readDone, .readDone, .unlock]

/-- Events that the watcher appends when it passes its `select`, written out. -/
def watchEvents (k : SelectCase) (w : World) : List Event :=
  match k with
  | .ctxDone =>
    match w.c.Context.err with
    | some e => .select :: cancelEvents e w.c
    | none => [.select]
  | .sigRecv _ => .select :: .ctxCancel :: cancelEvents .signalReceived w.c

/-- World after the watcher passed its `select` through case `k`, written out. -/
def watchPost (k : SelectCase) (w : World) : World :=
  match k with
  | .ctxDone =>
    match w.c.Context.err with
    | some e => cancelPost e (w.emit .select)
    | none => w.emit .select
  | .sigRecv _ =>
    cancelPost .signalReceived
      { w with c := { w.c with Context := cancelFunc w.c.Context },
               trace := w.trace ++ [.select, .ctxCancel] }

/-- World that the constructor returns, written out. -/
def freshPost (p : Ctx) (sig : List Signal) (rt : Runtime) : World :=
  { rt := { rt with next := rt.next + 1,
                    handlers := rt.handlers ++ (expand sig).map (fun s => (rt.next, s)) },
    c := { Context := { err := p.err }, sig := sig, ch := some rt.next, mu := false,
           done := none, err := none },
    trace := [], watcher := true }

/-- Parts of the wrapper that no operation changes once they are set. -/
def Stable (w w1 : World) : Prop :=
  w1.c.sig = w.c.sig ∧ w1.c.ch = w.c.ch ∧
  (∀ d, w.c.done = some d → w1.c.done = some d) ∧
  (∀ e, w.c.err = some e → w1.c.err = some e) ∧
  (∀ e, w.c.Context.err = some e → w1.c.Context.err = some e)

/-- The wrapper calls `c.ctxCancel()` at most once, and not before the watcher
has passed its `select`. -/
def Cnt (w : World) : Prop :=
  ctxCancelCount w.trace ≤ 1 ∧ (w.watcher = true → ctxCancelCount w.trace = 0)

/-- Terminal values that a wrapper used from outside the package can hold. -/
def ExtInv (w : World) : Prop :=
  (w.c.err = none ∨ w.c.err = SignalReceived ∨ w.c.err = w.c.Context.err) ∧
  (w.watcher = true → w.c.err = none)

/-! ## Closed forms of the methods -/

theorem init_eq : init = .ok pkgInit := rfl

theorem fresh_eq : WithCancelBySignal (some { err := none }) [2] pkgInit = .ok fresh := rfl

theorem Done_nil (w : World) (hmu : w.c.mu = false) (hd : w.c.done = none) :
    signalCtx.Done w = .ok (some w.rt.next)
      { w with rt := { w.rt with next := w.rt.next + 1 },
               c := { w.c with done := some w.rt.next },
               trace := w.trace ++ [.lock, .readDone, .make w.rt.next,
                 .writeDone (some w.rt.next), .readDone, .unlock] } := by
  obtain ⟨rt, c, tr, wa⟩ := w
  obtain ⟨cx, sg, ch, mu, dn, er⟩ := c
  simp only at hmu hd
  subst hmu hd
  simp [signalCtx.Done, bind, M.bind, mu_Lock, get_done, set_done, make, Runtime.make,
    mu_Unlock, World.emit, pure]

theorem Done_some (w : World) (hmu : w.c.mu = false) (a : Addr) (hd : w.c.done = some a) :
    signalCtx.Done w = .ok (some a)
      { w with trace := w.trace ++ [.lock, .readDone, .readDone, .unlock] } := by
  obtain ⟨rt, c, tr, wa⟩ := w
  obtain ⟨cx, sg, ch, mu, dn, er⟩ := c
  simp only at hmu hd
  subst hmu hd
  simp [signalCtx.Done, bind, M.bind, mu_Lock, get_done, mu_Unlock, World.emit, pure]

theorem Err_eq (w : World) (hmu : w.c.mu = false) :
    signalCtx.Err w = .ok w.c.err { w with trace := w.trace ++ [.lock, .readErr, .unlock] } := by
  obtain ⟨rt, c, tr, wa⟩ := w
  obtain ⟨cx, sg, ch, mu, dn, er⟩ := c
  simp only at hmu
  subst hmu
  simp [signalCtx.Err, bind, M.bind, mu_Lock, get_err, mu_Unlock, World.emit, pure]

theorem cancel_nil (w : World) : signalCtx.cancel none w = .panic .missingCancelError w := by
  simp [signalCtx.cancel, bind, M.bind, panic]

theorem cancel_again (w : World) (hmu : w.c.mu = false) (e e0 : GoError)
    (he : w.c.err = some e0) :
    signalCtx.cancel (some e) w
      = .ok () { w with trace := w.trace ++ [.lock, .readErr, .unlock] } := by
  obtain ⟨rt, c, tr, wa⟩ := w
  obtain ⟨cx, sg, ch, mu, dn, er⟩ := c
  simp only at hmu he
  subst hmu he
  simp [signalCtx.cancel, bind, M.bind, mu_Lock, get_err, mu_Unlock, World.emit, pure]

theorem cancel_first_nil (w : World) (hmu : w.c.mu = false) (e : GoError)
    (he : w.c.err = none) (hd : w.c.done = none) (a : Addr) (hch : w.c.ch = some a)
    (ha : a ∉ w.rt.closed) :
    signalCtx.cancel (some e) w = .ok ()
      { w with rt := { (w.rt.Reset w.c.sig) with closed := a :: w.rt.closed },
               c := { w.c with err := some e, done := closedchan },
               trace := w.trace ++ [.lock, .readErr, .writeErr (some e), .readDone,
                 .writeDone closedchan, .reset w.c.sig, .close (some a), .unlock] } := by
  obtain ⟨rt, c, tr, wa⟩ := w
  obtain ⟨cx, sg, ch, mu, dn, er⟩ := c
  simp only at hmu he hd hch ha
  subst hmu he hd hch
  simp [signalCtx.cancel, bind, M.bind, mu_Lock, get_err, set_err, get_done, set_done,
    signal_Reset, read, close, Runtime.close, Runtime.Reset, mu_Unlock, World.emit, pure, ha]

theorem cancel_first_some (w : World) (hmu : w.c.mu = false) (e : GoError)
    (he : w.c.err = none) (d : Addr) (hd : w.c.done = some d) (hdc : d ∉ w.rt.closed)
    (a : Addr) (hch : w.c.ch = some a) (ha : a ∉ w.rt.closed) (hne : a ≠ d) :
    signalCtx.cancel (some e) w = .ok ()
      { w with rt := { (w.rt.Reset w.c.sig) with closed := a :: d :: w.rt.closed },
               c := { w.c with err := some e },
               trace := w.trace ++ [.lock, .readErr, .writeErr (some e), .readDone,
                 .readDone, .close (some d), .reset w.c.sig, .close (some a), .unlock] } := by
  obtain ⟨rt, c, tr, wa⟩ := w
  obtain ⟨cx, sg, ch, mu, dn, er⟩ := c
  simp only at hmu he hd hch ha hdc
  subst hmu he hd hch
  simp [signalCtx.cancel, bind, M.bind, mu_Lock, get_err, set_err, get_done, set_done,
    signal_Reset, read, close, Runtime.close, Runtime.Reset, mu_Unlock, World.emit, pure, ha,
    hdc, hne]

theorem Done_eq (w : World) (hmu : w.c.mu = false) :
    signalCtx.Done w = .ok (DonePost w).c.done (DonePost w) := by
  cases hd : w.c.done with
  | none => rw [Done_nil w hmu hd]; simp [DonePost, hd]
  | some a => rw [Done_some w hmu a hd]; simp [DonePost, hd]

theorem cancel_eq (w : World) (hi : Inv w) (e : GoError) :
    signalCtx.cancel (some e) w = .ok () (cancelPost e w) := by
  obtain ⟨a, hch, -, -, hne⟩ := hi.ch
  cases he : w.c.err with
  | some e0 => rw [cancel_again w hi.mu e e0 he]; simp [cancelPost, he]
  | none =>
    have hl := hi.live he
    cases hd : w.c.done with
    | none =>
      rw [cancel_first_nil w hi.mu e he hd a hch (hl.2 a hch)]
      simp [cancelPost, he, hd, hch]
    | some d =>
      rw [cancel_first_some w hi.mu e he d hd (hl.1 d hd) a hch (hl.2 a hch)
        (by intro h; exact hne (by rw [hd, h]))]
      simp [cancelPost, he, hd, hch]

/-! ## The invariant is established and preserved -/

theorem Inv_DonePost (w : World) (hi : Inv w) : Inv (DonePost w) := by
  obtain ⟨hmu, hcc, hlt, ⟨a, hch, ha0, halt, hne⟩, hdlt, hlive, hdead, hsubs, heff⟩ := hi
  obtain ⟨rt, c, tr, wa⟩ := w
  obtain ⟨cx, sg, ch, mu, dn, er⟩ := c
  simp only at hmu hcc hlt hch halt hne hdlt hlive hdead hsubs heff
  subst hch
  cases dn with
  | some d =>
    refine ⟨hmu, hcc, hlt, ⟨a, rfl, ha0, halt, hne⟩, hdlt, hlive, hdead, hsubs, ?_⟩
    · simpa [DonePost, osEffects, isOSEffect, List.filter_append] using heff
  | none =>
    have her : er = none := by
      cases er with
      | none => rfl
      | some e => obtain ⟨⟨d, hd, -⟩, -⟩ := hdead e rfl; cases hd
    subst her
    refine ⟨hmu, hcc, ?_, ⟨a, rfl, ha0, ?_, ?_⟩, ?_, ?_, ?_, hsubs, ?_⟩
    · intro b hb
      exact Nat.lt_succ_of_lt (hlt b hb)
    · exact Nat.lt_succ_of_lt halt
    · show some rt.next ≠ some a
      intro h
      injection h with h
      exact Nat.lt_irrefl a (h ▸ halt)
    · intro d hd
      have hd : some rt.next = some d := hd
      injection hd with hd
      subst hd
      exact Nat.lt_succ_self _
    · intro _
      refine ⟨?_, ?_⟩
      · intro d hd hmem
        have hd : some rt.next = some d := hd
        have hmem : d ∈ rt.closed := hmem
        injection hd with hd
        subst hd
        exact Nat.lt_irrefl _ (hlt _ hmem)
      · intro b hb
        exact (hlive rfl).2 b hb
    · intro e he
      simp [DonePost] at he
    · simpa [DonePost, osEffects, isOSEffect, List.filter_append] using heff

theorem closedchan_eq : closedchan = some 0 := rfl

theorem Inv_cancelPost (w : World) (hi : Inv w) (e : GoError) : Inv (cancelPost e w) := by
  obtain ⟨hmu, hcc, hlt, ⟨a, hch, ha0, halt, hne⟩, hdlt, hlive, hdead, hsubs, heff⟩ := hi
  obtain ⟨rt, c, tr, wa⟩ := w
  obtain ⟨cx, sg, ch, mu, dn, er⟩ := c
  simp only at hmu hcc hlt hch halt hne hdlt hlive hdead hsubs heff
  subst hch
  cases er with
  | some e0 =>
    refine ⟨hmu, hcc, hlt, ⟨a, rfl, ha0, halt, hne⟩, hdlt, hlive, hdead, hsubs, ?_⟩
    · simpa [cancelPost, osEffects, isOSEffect, List.filter_append] using heff
  | none =>
    have hfil : ∀ s, (a, s) ∉ rt.handlers.filter (fun p => decide (p.2 ∉ expand sg)) := by
      intro s hs
      rw [List.mem_filter] at hs
      have h1 := hsubs a s rfl hs.1
      have h2 := hs.2
      simp at h2
      exact h2 h1
    have hsub2 : ∀ b s, b = a →
        (b, s) ∈ rt.handlers.filter (fun p => decide (p.2 ∉ expand sg)) → s ∈ expand sg := by
      intro b s hb hs
      subst hb
      exact absurd hs (hfil s)
    have heff0 : osEffects (some a) tr = [] := by simpa using heff
    cases dn with
    | none =>
      refine ⟨hmu, ?_, ?_, ⟨a, rfl, ha0, halt, ?_⟩, ?_, ?_, ?_, ?_, ?_⟩
      · show (0 : Nat) ∈ [a] ++ rt.closed
        simp [hcc]
      · intro b hb
        have hb : b ∈ [a] ++ rt.closed := hb
        simp at hb
        rcases hb with hb | hb
        · subst hb; exact halt
        · exact hlt b hb
      · show closedchan ≠ some a
        rw [closedchan_eq]
        intro h
        injection h with h
        exact ha0 h.symm
      · intro d hd
        have hd : closedchan = some d := hd
        rw [closedchan_eq] at hd
        injection hd with hd
        subst hd
        exact hlt 0 hcc
      · intro h
        simp [cancelPost] at h
      · intro e1 _
        refine ⟨⟨0, rfl, ?_⟩, ?_⟩
        · show (0 : Nat) ∈ [a] ++ rt.closed
          simp [hcc]
        · intro b hb
          have hb : some a = some b := hb
          injection hb with hb
          subst hb
          refine ⟨?_, ?_⟩
          · show a ∈ [a] ++ rt.closed
            simp
          · exact hfil
      · intro b s hb hs
        have hb : some a = some b := hb
        injection hb with hb
        exact hsub2 b s hb.symm hs
      · simp [cancelPost, osEffects, isOSEffect, List.filter_append] at heff0 ⊢
        exact heff0
    | some d =>
      have hda : d ≠ a := fun h => hne (by rw [h])
      refine ⟨hmu, ?_, ?_, ⟨a, rfl, ha0, halt, hne⟩, hdlt, ?_, ?_, ?_, ?_⟩
      · show (0 : Nat) ∈ [a] ++ d :: rt.closed
        simp [hcc]
      · intro b hb
        have hb : b ∈ [a] ++ d :: rt.closed := hb
        simp at hb
        rcases hb with hb | hb | hb
        · subst hb; exact halt
        · subst hb; exact hdlt b rfl
        · exact hlt b hb
      · intro h
        simp [cancelPost] at h
      · intro e1 _
        refine ⟨⟨d, rfl, ?_⟩, ?_⟩
        · show d ∈ [a] ++ d :: rt.closed
          simp
        · intro b hb
          have hb : some a = some b := hb
          injection hb with hb
          subst hb
          refine ⟨?_, ?_⟩
          · show a ∈ [a] ++ d :: rt.closed
            simp
          · exact hfil
      · intro b s hb hs
        have hb : some a = some b := hb
        injection hb with hb
        exact hsub2 b s hb.symm hs
      · simp [cancelPost, osEffects, isOSEffect, List.filter_append, hda] at heff0 ⊢
        exact heff0

/-- Changes that touch neither the heap, the signal table nor the guarded
fields keep the invariant: a new derived context and more events that do not
face the operating system. -/
theorem Inv_frame (w : World) (hi : Inv w) (cx : Ctx) (t : List Event) (wa : Bool)
    (ht : osEffects w.c.ch t = []) :
    Inv { w with c := { w.c with Context := cx }, trace := w.trace ++ t, watcher := wa } := by
  obtain ⟨hmu, hcc, hlt, hch, hdlt, hlive, hdead, hsubs, heff⟩ := hi
  refine ⟨hmu, hcc, hlt, hch, hdlt, hlive, hdead, hsubs, ?_⟩
  show osEffects w.c.ch (w.trace ++ t) = _
  rw [osEffects, List.filter_append, ← osEffects, ← osEffects, ht, List.append_nil]
  exact heff

theorem watch_block (w : World) (k : SelectCase) (hr : k.ready w = false) :
    signalCtx.watch k w = .block w := by
  simp [signalCtx.watch, bind, M.bind, select, hr]

theorem watch_eq (w : World) (hi : Inv w) (k : SelectCase) (hr : k.ready w = true) :
    signalCtx.watch k w = .ok () (watchPost k w) ∧ Inv (watchPost k w) := by
  cases k with
  | ctxDone =>
    have hr1 : w.c.Context.err.isSome = true := hr
    obtain ⟨e, he⟩ := Option.isSome_iff_exists.mp hr1
    have hi1 : Inv (w.emit .select) := by
      have := Inv_frame w hi w.c.Context [.select] w.watcher (by simp [osEffects, isOSEffect])
      exact this
    refine ⟨?_, ?_⟩
    · have := cancel_eq (w.emit .select) hi1 e
      simp [signalCtx.watch, bind, M.bind, select, hr, Context_Err, watchPost, he, World.emit]
        at this ⊢
      exact this
    · simp only [watchPost, he]
      exact Inv_cancelPost _ hi1 e
  | sigRecv s =>
    have hi1 : Inv { w with c := { w.c with Context := cancelFunc w.c.Context },
                            trace := w.trace ++ [.select, .ctxCancel] } :=
      Inv_frame w hi (cancelFunc w.c.Context) [.select, .ctxCancel] w.watcher
        (by simp [osEffects, isOSEffect])
    refine ⟨?_, ?_⟩
    · have := cancel_eq _ hi1 .signalReceived
      simp [signalCtx.watch, bind, M.bind, select, hr, ctxCancel, watchPost, World.emit,
        SignalReceived] at this ⊢
      exact this
    · exact Inv_cancelPost _ hi1 .signalReceived

theorem Stable.refl (w : World) : Stable w w := ⟨rfl, rfl, fun _ h => h, fun _ h => h, fun _ h => h⟩

theorem Stable.trans {a b c : World} (h1 : Stable a b) (h2 : Stable b c) : Stable a c :=
  ⟨h2.1.trans h1.1, h2.2.1.trans h1.2.1, fun d h => h2.2.2.1 d (h1.2.2.1 d h),
    fun e h => h2.2.2.2.1 e (h1.2.2.2.1 e h), fun e h => h2.2.2.2.2 e (h1.2.2.2.2 e h)⟩

theorem Stable_DonePost (w : World) : Stable w (DonePost w) := by
  unfold DonePost
  cases hd : w.c.done with
  | none => exact ⟨rfl, rfl, fun d h => by simp [hd] at h, fun _ h => h, fun _ h => h⟩
  | some a => exact ⟨rfl, rfl, fun _ h => h, fun _ h => h, fun _ h => h⟩

theorem Stable_cancelPost (e : GoError) (w : World) : Stable w (cancelPost e w) := by
  unfold cancelPost
  cases he : w.c.err with
  | some e0 => exact ⟨rfl, rfl, fun _ h => h, fun _ h => h, fun _ h => h⟩
  | none =>
    cases hd : w.c.done with
    | none =>
      exact ⟨rfl, rfl, fun d h => by simp [hd] at h, fun e1 h => by simp [he] at h, fun _ h => h⟩
    | some a =>
      exact ⟨rfl, rfl, fun d h => h, fun e1 h => by simp [he] at h, fun _ h => h⟩

theorem cancelFunc_some (x : Ctx) (e : GoError) (h : x.err = some e) : cancelFunc x = x := by
  simp [cancelFunc, h]

theorem cancelFunc_none (x : Ctx) (h : x.err = none) : (cancelFunc x).err = some .canceled := by
  simp [cancelFunc, h]

theorem Stable_watchPost (k : SelectCase) (w : World) : Stable w (watchPost k w) := by
  cases k with
  | ctxDone =>
    unfold watchPost
    cases he : w.c.Context.err with
    | none => exact ⟨rfl, rfl, fun _ h => h, fun _ h => h, fun _ h => h⟩
    | some e => exact Stable_cancelPost e (w.emit .select)
  | sigRecv s =>
    unfold watchPost
    refine Stable.trans ?_ (Stable_cancelPost _ _)
    refine ⟨rfl, rfl, fun _ h => h, fun _ h => h, fun e h => ?_⟩
    show (cancelFunc w.c.Context).err = some e
    rw [cancelFunc_some _ e h]
    exact h

/-- Outcome of a step, by operation. -/
theorem step_eq (w : World) (hi : Inv w) (op : Op) :
    step op w =
      match op with
      | .Done => DonePost w
      | .Err => { w with trace := w.trace ++ [.lock, .readErr, .unlock] }
      | .cancel none => w
      | .cancel (some e) => cancelPost e w
      | .watch k =>
        if w.watcher = true ∧ k.ready w = true then { watchPost k w with watcher := false } else w
      | .cancelFunc => { w with c := { w.c with Context := cancelFunc w.c.Context } }
      | .parentDone e =>
        match w.c.Context.err with
        | none => { w with c := { w.c with Context := { err := some e } } }
        | some _ => w := by
  cases op with
  | Done => simp [step, Done_eq w hi.mu, Result.world]
  | Err => simp [step, Err_eq w hi.mu, Result.world]
  | cancel e =>
    cases e with
    | none => simp [step, cancel_nil, Result.world]
    | some e => simp [step, cancel_eq w hi, Result.world]
  | watch k =>
    cases hw : w.watcher with
    | false => simp [step, hw]
    | true =>
      cases hr : k.ready w with
      | false => simp [step, hw, hr, watch_block w k hr]
      | true => simp [step, hw, hr, (watch_eq w hi k hr).1]
  | cancelFunc => rfl
  | parentDone e => rfl

theorem step_inv (w : World) (hi : Inv w) (op : Op) :
    Inv (step op w) ∧ Stable w (step op w) := by
  rw [step_eq w hi op]
  cases op with
  | Done => exact ⟨Inv_DonePost w hi, Stable_DonePost w⟩
  | Err =>
    exact ⟨Inv_frame w hi w.c.Context _ w.watcher (by simp [osEffects, isOSEffect]),
      ⟨rfl, rfl, fun _ h => h, fun _ h => h, fun _ h => h⟩⟩
  | cancel e =>
    cases e with
    | none => exact ⟨hi, Stable.refl w⟩
    | some e => exact ⟨Inv_cancelPost w hi e, Stable_cancelPost e w⟩
  | watch k =>
    by_cases h : w.watcher = true ∧ k.ready w = true
    · simp only [h, and_self, if_true]
      have h1 := (watch_eq w hi k h.2).2
      have h2 := Stable_watchPost k w
      exact ⟨⟨h1.mu, h1.cc, h1.closed_lt, h1.ch, h1.done_lt, h1.live, h1.dead, h1.subs, h1.eff⟩,
        h2⟩
    · simp only [h, if_false]
      exact ⟨hi, Stable.refl w⟩
  | cancelFunc =>
    refine ⟨⟨hi.mu, hi.cc, hi.closed_lt, hi.ch, hi.done_lt, hi.live, hi.dead, hi.subs, hi.eff⟩,
      ⟨rfl, rfl, fun _ h => h, fun _ h => h, fun e h => ?_⟩⟩
    show (cancelFunc w.c.Context).err = some e
    rw [cancelFunc_some _ e h]
    exact h
  | parentDone e =>
    cases hc : w.c.Context.err with
    | none =>
      exact ⟨⟨hi.mu, hi.cc, hi.closed_lt, hi.ch, hi.done_lt, hi.live, hi.dead, hi.subs, hi.eff⟩,
        ⟨rfl, rfl, fun _ h => h, fun _ h => h, fun e1 h => by simp [hc] at h⟩⟩
    | some e0 => exact ⟨hi, Stable.refl w⟩

theorem run_inv (ops : List Op) (w : World) (hi : Inv w) :
    Inv (run ops w) ∧ Stable w (run ops w) := by
  induction ops generalizing w with
  | nil => exact ⟨hi, Stable.refl w⟩
  | cons op ops ih =>
    have h1 := step_inv w hi op
    have h2 := ih (step op w) h1.1
    exact ⟨h2.1, Stable.trans h1.2 h2.2⟩

theorem pkgInit_WF : pkgInit.WF := by
  simp [Runtime.WF, pkgInit]

theorem WithCancelBySignal_eq (parent : Option Ctx) (sig : List Signal) (rt : Runtime)
    (w0 : World) (h : WithCancelBySignal parent sig rt = .ok w0) :
    ∃ p, parent = some p ∧ w0 = freshPost p sig rt := by
  cases parent with
  | none => simp [WithCancelBySignal, WithCancel] at h
  | some p =>
    refine ⟨p, rfl, ?_⟩
    simp [WithCancelBySignal, WithCancel, Runtime.make, Runtime.Notify] at h
    rw [← h]
    rfl

theorem Inv_freshPost (p : Ctx) (sig : List Signal) (rt : Runtime) (hrt : rt.WF) :
    Inv (freshPost p sig rt) := by
  obtain ⟨h0, hlt, hh⟩ := hrt
  have hpos : 0 < rt.next := hlt 0 h0
  refine ⟨rfl, h0, ?_, ⟨rt.next, rfl, Nat.ne_of_gt hpos, Nat.lt_succ_self _, ?_⟩,
    ?_, ?_, ?_, ?_, ?_⟩
  · intro a ha
    exact Nat.lt_succ_of_lt (hlt a ha)
  · simp [freshPost]
  · intro d hd
    simp [freshPost] at hd
  · intro _
    refine ⟨fun d hd => by simp [freshPost] at hd, fun a ha hmem => ?_⟩
    have ha : some rt.next = some a := ha
    injection ha with ha
    subst ha
    exact Nat.lt_irrefl _ (hlt _ hmem)
  · intro e he
    simp [freshPost] at he
  · intro a s ha hs
    have ha : some rt.next = some a := ha
    injection ha with ha
    subst ha
    have hs : (rt.next, s) ∈ rt.handlers ++ (expand sig).map (fun s => (rt.next, s)) := hs
    rw [List.mem_append] at hs
    rcases hs with hs | hs
    · exact absurd (hh _ hs) (Nat.lt_irrefl _)
    · simp at hs
      exact hs
  · simp [freshPost, osEffects]

theorem Reachable.inv {w : World} (hr : Reachable w) : Inv w := by
  obtain ⟨rt, parent, sig, ops, w0, hrt, h0, hrun⟩ := hr
  obtain ⟨p, -, hw0⟩ := WithCancelBySignal_eq parent sig rt w0 h0
  subst hw0 hrun
  exact (run_inv ops _ (Inv_freshPost p sig rt hrt)).1

theorem Reachable.after_step {w : World} (hr : Reachable w) (op : Op) : Reachable (step op w) := by
  obtain ⟨rt, parent, sig, ops, w0, hrt, h0, hrun⟩ := hr
  refine ⟨rt, parent, sig, ops ++ [op], w0, hrt, h0, ?_⟩
  simp [run, List.foldl_append] at hrun ⊢
  rw [hrun]

theorem Reachable.after_run {w : World} (hr : Reachable w) (ops : List Op) : Reachable (run ops w) := by
  induction ops generalizing w with
  | nil => exact hr
  | cons op ops ih => exact ih (hr.after_step op)

theorem fresh_reachable : Reachable fresh :=
  ⟨pkgInit, some { err := none }, [2], [], fresh, pkgInit_WF, rfl, rfl⟩

theorem fresh_parentDone_external :
    ReachableExternally (run [.parentDone (.other 3)] fresh) :=
  ⟨pkgInit, some { err := none }, [2], [.parentDone (.other 3)], fresh, pkgInit_WF, rfl,
    by simp [Op.external], rfl⟩

theorem cancelPost_err (e : GoError) (w : World) (he : w.c.err = none) :
    (cancelPost e w).c.err = some e := by
  unfold cancelPost
  cases hd : w.c.done <;> simp [he]

theorem cancelPost_doneClosed (e : GoError) (w : World) (hi : Inv w) :
    doneClosed (cancelPost e w) = true := by
  have h1 := Inv_cancelPost w hi e
  cases he : w.c.err with
  | some e0 =>
    obtain ⟨⟨d, hd, hmem⟩, -⟩ := h1.dead e0 ((Stable_cancelPost e w).2.2.2.1 e0 he)
    simp [doneClosed, hd, hmem]
  | none =>
    obtain ⟨⟨d, hd, hmem⟩, -⟩ := h1.dead e (cancelPost_err e w he)
    simp [doneClosed, hd, hmem]

theorem Inv.doneClosed_iff {w : World} (hi : Inv w) : doneClosed w = true ↔ w.c.err ≠ none := by
  cases he : w.c.err with
  | some e0 =>
    obtain ⟨⟨d, hd, hmem⟩, -⟩ := hi.dead e0 he
    simp [doneClosed, hd, hmem]
  | none =>
    have hl := (hi.live he).1
    cases hd : w.c.done with
    | none => simp [doneClosed, hd]
    | some d => simp [doneClosed, hd, hl d hd]

theorem newEvents_append (w w1 : World) (t : List Event) (h : w1.trace = w.trace ++ t) :
    newEvents w w1 = t := by
  simp [newEvents, h]

theorem cancelAll_eq (es : List GoError) (w : World) (hi : Inv w) :
    cancelAll es w = .ok () (run (es.map (fun x => Op.cancel (some x))) w) := by
  induction es generalizing w with
  | nil => rfl
  | cons e es ih =>
    have h1 := step_inv w hi (.cancel (some e))
    have h2 := ih _ h1.1
    rw [step_eq w hi] at h2
    simp only [cancelAll, bind, M.bind, cancel_eq w hi e]
    rw [h2]
    simp only [List.map_cons, run, List.foldl_cons]
    rw [step_eq w hi]

theorem Inv.chClosed_iff {w : World} (hi : Inv w) : chClosed w = true ↔ w.c.err ≠ none := by
  obtain ⟨a, hch, -, -, -⟩ := hi.ch
  cases he : w.c.err with
  | some e0 =>
    have := ((hi.dead e0 he).2 a hch).1
    simp [chClosed, hch, this]
  | none =>
    have := (hi.live he).2 a hch
    simp [chClosed, hch, this]

theorem Inv.not_subscribed {w : World} (hi : Inv w) (h : chClosed w = true) :
    subscribed w = false := by
  obtain ⟨a, hch, -, -, -⟩ := hi.ch
  cases he : w.c.err with
  | none => exact absurd he (hi.chClosed_iff.mp h)
  | some e0 =>
    have h2 := ((hi.dead e0 he).2 a hch).2
    simp only [subscribed, hch]
    rw [Bool.eq_false_iff]
    intro hany
    rw [List.any_eq_true] at hany
    obtain ⟨⟨b, s⟩, hmem, hb⟩ := hany
    simp at hb
    subst hb
    exact h2 s hmem

theorem cancelPost_trace (e : GoError) (w : World) :
    (cancelPost e w).trace = w.trace ++ cancelEvents e w.c := by
  unfold cancelPost cancelEvents
  cases he : w.c.err with
  | some e0 => rfl
  | none => cases hd : w.c.done <;> rfl

theorem DonePost_trace (w : World) : (DonePost w).trace = w.trace ++ DoneEvents w := by
  unfold DonePost DoneEvents
  cases hd : w.c.done <;> rfl

theorem cancelEvents_Context (e : GoError) (c : signalCtx) (x : Ctx) :
    cancelEvents e { c with Context := x } = cancelEvents e c := rfl

theorem watchPost_trace (k : SelectCase) (w : World) :
    (watchPost k w).trace = w.trace ++ watchEvents k w := by
  cases k with
  | ctxDone =>
    unfold watchPost watchEvents
    cases he : w.c.Context.err with
    | none => rfl
    | some e =>
      rw [cancelPost_trace]
      simp [World.emit]
  | sigRecv s =>
    unfold watchPost watchEvents
    rw [cancelPost_trace]
    simp [cancelEvents_Context]

theorem ctxCancelCount_append (t u : List Event) :
    ctxCancelCount (t ++ u) = ctxCancelCount t + ctxCancelCount u := by
  induction t with
  | nil => simp [ctxCancelCount]
  | cons a t ih =>
    cases a <;> simp [ctxCancelCount, ih]
    omega

theorem cancelEvents_facts (e : GoError) (c : signalCtx) :
    disciplined false (cancelEvents e c) = true ∧ lockCount (cancelEvents e c) = 1 ∧
    unlockCount (cancelEvents e c) = 1 ∧ ctxCancelCount (cancelEvents e c) = 0 := by
  unfold cancelEvents
  cases c.err with
  | some e0 => simp [disciplined, lockStep, lockCount, unlockCount, ctxCancelCount]
  | none =>
    cases c.done <;> simp [disciplined, lockStep, lockCount, unlockCount, ctxCancelCount]

theorem DoneEvents_facts (w : World) :
    disciplined false (DoneEvents w) = true ∧ lockCount (DoneEvents w) = 1 ∧
    unlockCount (DoneEvents w) = 1 ∧ ctxCancelCount (DoneEvents w) = 0 := by
  unfold DoneEvents
  cases w.c.done <;> simp [disciplined, lockStep, lockCount, unlockCount, ctxCancelCount]

theorem disciplined_select (t : List Event) :
    disciplined false (.select :: t) = disciplined false t := by
  simp [disciplined, lockStep]

theorem disciplined_select_ctxCancel (t : List Event) :
    disciplined false (.select :: .ctxCancel :: t) = disciplined false t := by
  simp [disciplined, lockStep]

theorem watchEvents_facts (k : SelectCase) (w : World) (hr : k.ready w = true) :
    disciplined false (watchEvents k w) = true ∧
    (watchEvents k w).head? = some .select ∧
    ctxCancelCount (watchEvents k w) = (match k with | .ctxDone => 0 | .sigRecv _ => 1) := by
  cases k with
  | ctxDone =>
    have hr1 : w.c.Context.err.isSome = true := hr
    obtain ⟨e, he⟩ := Option.isSome_iff_exists.mp hr1
    have h := cancelEvents_facts e w.c
    simp only [watchEvents, he]
    refine ⟨by rw [disciplined_select]; exact h.1, rfl, ?_⟩
    simp [ctxCancelCount, h.2.2.2]
  | sigRecv s =>
    have h := cancelEvents_facts .signalReceived w.c
    simp only [watchEvents]
    refine ⟨by rw [disciplined_select_ctxCancel]; exact h.1, rfl, ?_⟩
    simp [ctxCancelCount, h.2.2.2]

theorem step_cnt (w : World) (hi : Inv w) (hc : Cnt w) (op : Op) : Cnt (step op w) := by
  rw [step_eq w hi op]
  cases op with
  | Done =>
    have h := (DoneEvents_facts w).2.2.2
    refine ⟨?_, fun hw => ?_⟩
    · rw [DonePost_trace, ctxCancelCount_append, h]; exact hc.1
    · rw [DonePost_trace, ctxCancelCount_append, h]
      have hw1 : w.watcher = true := by
        unfold DonePost at hw
        cases hd : w.c.done <;> simpa [hd] using hw
      exact hc.2 hw1
  | Err =>
    refine ⟨?_, fun hw => ?_⟩
    · show ctxCancelCount (w.trace ++ _) ≤ 1
      rw [ctxCancelCount_append]; exact hc.1
    · show ctxCancelCount (w.trace ++ _) = 0
      rw [ctxCancelCount_append]; exact hc.2 hw
  | cancel e =>
    cases e with
    | none => exact hc
    | some e =>
      have h := (cancelEvents_facts e w.c).2.2.2
      refine ⟨?_, fun hw => ?_⟩
      · show ctxCancelCount (cancelPost e w).trace ≤ 1
        rw [cancelPost_trace, ctxCancelCount_append, h]; exact hc.1
      · show ctxCancelCount (cancelPost e w).trace = 0
        rw [cancelPost_trace, ctxCancelCount_append, h]
        have hw1 : w.watcher = true := by
          have hw : (cancelPost e w).watcher = true := hw
          unfold cancelPost at hw
          cases he : w.c.err with
          | some e0 => simpa [he] using hw
          | none => cases hd : w.c.done <;> simpa [he, hd] using hw
        exact hc.2 hw1
  | watch k =>
    by_cases h : w.watcher = true ∧ k.ready w = true
    · simp only [h, and_self, if_true]
      have h3 := (watchEvents_facts k w h.2).2.2
      refine ⟨?_, fun hw => by cases hw⟩
      show ctxCancelCount (watchPost k w).trace ≤ 1
      rw [watchPost_trace, ctxCancelCount_append, hc.2 h.1, h3]
      cases k <;> simp
    · simp only [h, if_false]
      exact hc
  | cancelFunc => exact hc
  | parentDone e =>
    cases hx : w.c.Context.err with
    | none => exact hc
    | some e0 => exact hc

theorem run_cnt (ops : List Op) (w : World) (hi : Inv w) (hc : Cnt w) : Cnt (run ops w) := by
  induction ops generalizing w with
  | nil => exact hc
  | cons op ops ih => exact ih (step op w) (step_inv w hi op).1 (step_cnt w hi hc op)

theorem Reachable.cnt {w : World} (hr : Reachable w) : Cnt w := by
  obtain ⟨rt, parent, sig, ops, w0, hrt, h0, hrun⟩ := hr
  obtain ⟨p, -, hw0⟩ := WithCancelBySignal_eq parent sig rt w0 h0
  subst hw0 hrun
  exact run_cnt ops _ (Inv_freshPost p sig rt hrt) ⟨by simp [freshPost, ctxCancelCount],
    fun _ => by simp [freshPost, ctxCancelCount]⟩

theorem DonePost_same (w : World) :
    (DonePost w).c.err = w.c.err ∧ (DonePost w).c.Context = w.c.Context ∧
    (DonePost w).watcher = w.watcher := by
  unfold DonePost
  cases w.c.done <;> exact ⟨rfl, rfl, rfl⟩

theorem cancelPost_same (e : GoError) (w : World) :
    (cancelPost e w).c.Context = w.c.Context ∧ (cancelPost e w).watcher = w.watcher := by
  unfold cancelPost
  cases w.c.err with
  | some e0 => exact ⟨rfl, rfl⟩
  | none => cases w.c.done <;> exact ⟨rfl, rfl⟩

theorem watchPost_err (k : SelectCase) (w : World) (he : w.c.err = none)
    (hk : k.ready w = true) :
    (watchPost k w).c.err = k.cause w.c.Context ∧
    (watchPost k w).c.err ≠ none ∧
    (k = .ctxDone → (watchPost k w).c.Context.err = w.c.Context.err) := by
  cases k with
  | ctxDone =>
    have hr1 : w.c.Context.err.isSome = true := hk
    obtain ⟨e, hx⟩ := Option.isSome_iff_exists.mp hr1
    have h1 : (watchPost .ctxDone w).c.err = some e := by
      simp only [watchPost, hx]
      exact cancelPost_err e _ he
    have h2 : (watchPost .ctxDone w).c.Context = w.c.Context := by
      simp only [watchPost, hx]
      exact (cancelPost_same e _).1
    refine ⟨?_, ?_, fun _ => ?_⟩
    · simp only [h1, hx, SelectCase.cause]
    · rw [h1]; simp
    · rw [h2]
  | sigRecv s =>
    have h1 : (watchPost (.sigRecv s) w).c.err = some .signalReceived := by
      simp only [watchPost]
      exact cancelPost_err _ _ he
    refine ⟨h1, ?_, fun h => by cases h⟩
    rw [h1]; simp

theorem step_ext (w : World) (hi : Inv w) (hx : ExtInv w) (op : Op)
    (hop : Op.external op = true) : ExtInv (step op w) := by
  rw [step_eq w hi op]
  cases op with
  | Done =>
    obtain ⟨h1, h2, h3⟩ := DonePost_same w
    unfold ExtInv
    rw [h1, h2, h3]
    exact hx
  | Err => exact hx
  | cancel e => cases hop
  | watch k =>
    by_cases h : w.watcher = true ∧ k.ready w = true
    · simp only [h, and_self, if_true]
      have he := hx.2 h.1
      have h1 := watchPost_err k w he h.2
      refine ⟨?_, fun hw => by cases hw⟩
      cases k with
      | ctxDone =>
        right; right
        show (watchPost .ctxDone w).c.err = (watchPost .ctxDone w).c.Context.err
        rw [h1.1, h1.2.2 rfl]
        rfl
      | sigRecv s =>
        right; left
        exact h1.1
    · simp only [h, if_false]
      exact hx
  | cancelFunc =>
    refine ⟨?_, hx.2⟩
    rcases hx.1 with h | h | h
    · exact Or.inl h
    · exact Or.inr (Or.inl h)
    · cases hc : w.c.Context.err with
      | none => exact Or.inl (h.trans hc)
      | some e0 =>
        right; right
        show w.c.err = (cancelFunc w.c.Context).err
        rw [cancelFunc_some _ e0 hc]
        exact h
  | parentDone e =>
    cases hc : w.c.Context.err with
    | none =>
      refine ⟨?_, hx.2⟩
      rcases hx.1 with h | h | h
      · exact Or.inl h
      · exact Or.inr (Or.inl h)
      · exact Or.inl (h.trans hc)
    | some e0 => exact hx

theorem run_ext (ops : List Op) (w : World) (hi : Inv w) (hx : ExtInv w)
    (hops : ∀ op ∈ ops, Op.external op = true) : ExtInv (run ops w) := by
  induction ops generalizing w with
  | nil => exact hx
  | cons op ops ih =>
    exact ih (step op w) (step_inv w hi op).1
      (step_ext w hi hx op (hops op (List.mem_cons_self _ _)))
      (fun o ho => hops o (List.mem_cons_of_mem _ ho))

theorem ReachableExternally.ext {w : World} (hr : ReachableExternally w) : ExtInv w := by
  obtain ⟨rt, parent, sig, ops, w0, hrt, h0, hops, hrun⟩ := hr
  obtain ⟨p, -, hw0⟩ := WithCancelBySignal_eq parent sig rt w0 h0
  subst hw0 hrun
  exact run_ext ops _ (Inv_freshPost p sig rt hrt) ⟨Or.inl rfl, fun _ => rfl⟩ hops

theorem cancelFunc_idem (x : Ctx) : cancelFunc (cancelFunc x) = cancelFunc x := by
  cases h : x.err with
  | none => exact cancelFunc_some _ .canceled (cancelFunc_none x h)
  | some e => rw [cancelFunc_some x e h, cancelFunc_some x e h]

theorem run_cancelFunc (n : Nat) (w : World) :
    run (List.replicate (n + 1) Op.cancelFunc) w = step .cancelFunc w := by
  induction n generalizing w with
  | zero => rfl
  | succ n ih =>
    rw [List.replicate_succ]
    show run (List.replicate (n + 1) Op.cancelFunc) (step .cancelFunc w) = _
    rw [ih]
    simp [step, cancelFunc_idem]

/-! ## Properties of the wrapper -/

/-- C9: in every reachable state, also a canceled one, `cancel(nil)` panics and
leaves the world exactly as it was, while `cancel(e)` with a non-nil `e` returns
normally; so `cancel` panics if and only if it is given no error, and it never
passes `closedchan` to `close`. -/
theorem cancel_panics_iff_nil (w : World) (hr : Reachable w) :
    signalCtx.cancel none w = .panic .missingCancelError w ∧
    (∀ e : GoError, ∃ w1, signalCtx.cancel (some e) w = .ok () w1 ∧
      Event.close closedchan ∉ newEvents w w1) ∧
    (∀ err : error, (∃ p w1, signalCtx.cancel err w = .panic p w1) ↔ err = none) := by
  have hi := hr.inv
  have hok : ∀ e : GoError, ∃ w1, signalCtx.cancel (some e) w = .ok () w1 ∧
      Event.close closedchan ∉ newEvents w w1 := by
    intro e
    refine ⟨cancelPost e w, cancel_eq w hi e, ?_⟩
    obtain ⟨a, hch, ha0, -, -⟩ := hi.ch
    unfold cancelPost
    cases he : w.c.err with
    | some e0 =>
      rw [newEvents_append w _ [.lock, .readErr, .unlock] rfl]
      simp
    | none =>
      cases hd : w.c.done with
      | none =>
        rw [newEvents_append w _ _ rfl]
        simp [hch, closedchan_eq]
        exact fun h => ha0 h.symm
      | some d =>
        have hd0 : d ≠ 0 := fun h => (hi.live he).1 d hd (h ▸ hi.cc)
        rw [newEvents_append w _ _ rfl]
        simp [hch, closedchan_eq]
        exact ⟨fun h => hd0 h.symm, fun h => ha0 h.symm⟩
  refine ⟨cancel_nil w, hok, ?_⟩
  intro err
  constructor
  · rintro ⟨p, w1, h⟩
    cases err with
    | none => rfl
    | some e =>
      obtain ⟨w2, h2, -⟩ := hok e
      rw [h2] at h
      cases h
  · intro h
    subst h
    exact ⟨_, _, cancel_nil w⟩

/-- Instance at a fresh wrapper: `cancel(nil)` panics and leaves it as it was. -/
theorem cancel_panics_iff_nil_witness :
    Reachable fresh ∧ signalCtx.cancel none fresh = .panic .missingCancelError fresh :=
  ⟨fresh_reachable, (cancel_panics_iff_nil fresh fresh_reachable).1⟩

/-- C2: in any state with the mutex free whose `err` is already set, `cancel(e)`
with a non-nil `e` returns normally and changes nothing (`err`, the done handle,
heap and signal table stay as they were) but the trace, to which it adds only
lock, read of `err`, unlock; and from a reachable state that is not yet
canceled, after `cancel(e)` followed by any further `cancel` calls with
non-nil errors, `Err()` returns `e`, the error of the first call. -/
theorem cancel_idempotent (w : World) (hmu : w.c.mu = false) (e : GoError)
    (es : List GoError) :
    (∀ e0, w.c.err = some e0 →
      signalCtx.cancel (some e) w
        = .ok () { w with trace := w.trace ++ [.lock, .readErr, .unlock] }) ∧
    (Reachable w → w.c.err = none →
      ∃ w2, signalCtx.Err (run ((e :: es).map (fun x => Op.cancel (some x))) w)
        = .ok (some e) w2) := by
  refine ⟨fun e0 he => cancel_again w hmu e e0 he, fun hr he => ?_⟩
  have hi := hr.inv
  have h1 := step_inv w hi (.cancel (some e))
  have h1e : (step (.cancel (some e)) w).c.err = some e := by
    rw [step_eq w hi]
    exact cancelPost_err e w he
  have h2 := run_inv (es.map (fun x => Op.cancel (some x))) _ h1.1
  have h2e := h2.2.2.2.2.1 e h1e
  have h3 := Err_eq _ h2.1.mu
  rw [h2e] at h3
  exact ⟨_, h3⟩

/-- Instance at a fresh wrapper: after three cancels `Err()` returns the error
of the first. -/
theorem cancel_idempotent_witness :
    fresh.c.mu = false ∧
    ∃ w2, signalCtx.Err (run [.cancel (some .canceled), .cancel (some (.other 7)),
      .cancel SignalReceived] fresh) = .ok (some .canceled) w2 :=
  ⟨rfl, (cancel_idempotent fresh rfl .canceled [.other 7, .signalReceived]).2
    fresh_reachable rfl⟩

/-- C3: in every reachable state the done handle is closed if and only if `err`
is non-nil; `Done()` returns a channel, and that channel is closed exactly when
`Err()` called next returns a non-nil error; and the `cancel(e)` that sets `err`
leaves the done handle closed. -/
theorem done_closed_iff_err (w : World) (hr : Reachable w) :
    (doneClosed w = true ↔ w.c.err ≠ none) ∧
    (∃ a w1, signalCtx.Done w = .ok (some a) w1 ∧
      (a ∈ w1.rt.closed ↔ ∃ e w2, signalCtx.Err w1 = .ok (some e) w2)) ∧
    (∀ e : GoError, w.c.err = none →
      ∃ w1, signalCtx.cancel (some e) w = .ok () w1 ∧ w1.c.err = some e ∧
        doneClosed w1 = true) := by
  have hi := hr.inv
  refine ⟨hi.doneClosed_iff, ?_, ?_⟩
  · have hi1 := Inv_DonePost w hi
    have hd : ∃ a, (DonePost w).c.done = some a := by
      unfold DonePost
      cases hd : w.c.done with
      | none => exact ⟨_, rfl⟩
      | some a => exact ⟨a, hd⟩
    obtain ⟨a, ha⟩ := hd
    refine ⟨a, DonePost w, ?_, ?_⟩
    · rw [Done_eq w hi.mu, ha]
    · have h1 := hi1.doneClosed_iff
      rw [Err_eq _ hi1.mu]
      simp only [doneClosed, ha, decide_eq_true_eq] at h1
      rw [h1]
      constructor
      · intro hne
        cases he : (DonePost w).c.err with
        | none => exact absurd he hne
        | some e => exact ⟨e, _, rfl⟩
      · rintro ⟨e, w2, h⟩
        injection h with h _
        rw [h]
        simp
  · intro e he
    exact ⟨cancelPost e w, cancel_eq w hi e, cancelPost_err e w he, cancelPost_doneClosed e w hi⟩

/-- Instance at a wrapper whose handle was requested before it was canceled. -/
theorem done_closed_iff_err_witness :
    Reachable (run [.Done, .cancel SignalReceived] fresh) ∧
    (doneClosed (run [.Done, .cancel SignalReceived] fresh) = true ↔
      (run [.Done, .cancel SignalReceived] fresh).c.err ≠ none) :=
  ⟨fresh_reachable.after_run _,
    (done_closed_iff_err _ (fresh_reachable.after_run _)).1⟩

/-- C4: from any reachable state, `Done()` returns a channel `d`, and after any
further operations (calls of `Done`, `Err`, `cancel`, the watcher, the caller's
cancel, the parent finishing) `Done()` returns the same `d` again and changes
neither the wrapper nor the heap; a `cancel(e)` in between closes `d` and keeps
it as the done handle. -/
theorem Done_idempotent (w : World) (hr : Reachable w) (ops : List Op) :
    ∃ d w1, signalCtx.Done w = .ok (some d) w1 ∧
      (∃ w3, signalCtx.Done (run ops w1) = .ok (some d) w3 ∧
        w3.c = (run ops w1).c ∧ w3.rt = (run ops w1).rt) ∧
      (∀ e : GoError, (step (.cancel (some e)) w1).c.done = some d ∧
        d ∈ (step (.cancel (some e)) w1).rt.closed) := by
  have hi := hr.inv
  have hi1 := Inv_DonePost w hi
  have hd : ∃ a, (DonePost w).c.done = some a := by
    unfold DonePost
    cases hd : w.c.done with
    | none => exact ⟨_, rfl⟩
    | some a => exact ⟨a, hd⟩
  obtain ⟨d, hd⟩ := hd
  refine ⟨d, DonePost w, ?_, ?_, ?_⟩
  · rw [Done_eq w hi.mu, hd]
  · have h2 := run_inv ops _ hi1
    have hd2 := h2.2.2.2.1 d hd
    refine ⟨_, Done_some _ h2.1.mu d hd2, rfl, rfl⟩
  · intro e
    have h2 := step_inv _ hi1 (.cancel (some e))
    have hd2 := h2.2.2.2.1 d hd
    refine ⟨hd2, ?_⟩
    have h3 : doneClosed (step (.cancel (some e)) (DonePost w)) = true := by
      rw [step_eq _ hi1]
      exact cancelPost_doneClosed e _ hi1
    simpa [doneClosed, hd2] using h3

/-- Instance at a fresh wrapper, with a cancel and an `Err()` between the two
`Done()` calls. -/
theorem Done_idempotent_witness :
    Reachable fresh ∧
    ∃ d w1, signalCtx.Done fresh = .ok (some d) w1 ∧
      (∃ w3, signalCtx.Done (run [.cancel SignalReceived, .Err] w1) = .ok (some d) w3 ∧
        w3.c = (run [.cancel SignalReceived, .Err] w1).c ∧
        w3.rt = (run [.cancel SignalReceived, .Err] w1).rt) ∧
      (∀ e : GoError, (step (.cancel (some e)) w1).c.done = some d ∧
        d ∈ (step (.cancel (some e)) w1).rt.closed) :=
  ⟨fresh_reachable, Done_idempotent fresh fresh_reachable [.cancel SignalReceived, .Err]⟩

/-- C5: in a reachable state whose done handle was never requested, the wrapper
is not canceled; `Done()` allocates a channel at a fresh address, open and
different from `closedchan` and from the signal channel, and stores it; whereas
`cancel(e)` with a non-nil `e` stores `closedchan` and allocates nothing, and
after any further operations `Done()` returns `closedchan`, which is closed,
again without allocating. -/
theorem Done_lazy (w : World) (hr : Reachable w) (hd : w.c.done = none) (e : GoError)
    (ops : List Op) :
    w.c.err = none ∧
    (∃ w1, signalCtx.Done w = .ok (some w.rt.next) w1 ∧ w1.c.done = some w.rt.next ∧
      Event.make w.rt.next ∈ newEvents w w1 ∧ w1.rt.next = w.rt.next + 1 ∧
      w.rt.next ∉ w1.rt.closed ∧ some w.rt.next ≠ closedchan ∧ some w.rt.next ≠ w.c.ch) ∧
    (∃ w1, signalCtx.cancel (some e) w = .ok () w1 ∧ w1.c.done = closedchan ∧
      w1.rt.next = w.rt.next ∧ (∀ a, Event.make a ∉ newEvents w w1) ∧
      ∃ w3, signalCtx.Done (run ops w1) = .ok closedchan w3 ∧
        w3.rt.next = (run ops w1).rt.next ∧ (∀ a, Event.make a ∉ newEvents (run ops w1) w3) ∧
        doneClosed w3 = true) := by
  have hi := hr.inv
  have he : w.c.err = none := by
    cases he : w.c.err with
    | none => rfl
    | some e0 =>
      obtain ⟨⟨d, h, -⟩, -⟩ := hi.dead e0 he
      rw [hd] at h
      cases h
  obtain ⟨a, hch, ha0, halt, -⟩ := hi.ch
  refine ⟨he, ⟨_, Done_nil w hi.mu hd, rfl, ?_, rfl, ?_, ?_, ?_⟩, ?_⟩
  · rw [newEvents_append w _ _ rfl]
    simp
  · intro hmem
    exact Nat.lt_irrefl _ (hi.closed_lt _ hmem)
  · rw [closedchan_eq]
    intro h
    injection h with h
    exact Nat.lt_irrefl _ (h ▸ hi.closed_lt 0 hi.cc)
  · rw [hch]
    intro h
    injection h with h
    exact Nat.lt_irrefl _ (h ▸ halt)
  · have hi1 := Inv_cancelPost w hi e
    have hpost : cancelPost e w =
        { w with rt := { (w.rt.Reset w.c.sig) with closed := w.c.ch.toList ++ w.rt.closed },
                 c := { w.c with err := some e, done := closedchan },
                 trace := w.trace ++ [.lock, .readErr, .writeErr (some e), .readDone,
                   .writeDone closedchan, .reset w.c.sig, .close w.c.ch, .unlock] } := by
      simp [cancelPost, he, hd]
    refine ⟨cancelPost e w, cancel_eq w hi e, ?_, ?_, ?_, ?_⟩
    · rw [hpost]
    · rw [hpost]
      rfl
    · intro b
      rw [newEvents_append w _ _ (by rw [hpost])]
      simp
    · have hd1 : (cancelPost e w).c.done = some 0 := by rw [hpost]; rfl
      have h2 := run_inv ops _ hi1
      have hd2 := h2.2.2.2.1 0 hd1
      refine ⟨_, Done_some _ h2.1.mu 0 hd2, rfl, ?_, ?_⟩
      · intro b
        rw [newEvents_append (run ops (cancelPost e w)) _ _ rfl]
        simp
      · simp [doneClosed, hd2, h2.1.cc]

/-- Instance at a fresh wrapper: `Done()` first allocates channel 2; `cancel`
first makes a later `Done()` return `closedchan`. -/
theorem Done_lazy_witness :
    Reachable fresh ∧ fresh.c.done = none ∧
    (∃ w1, signalCtx.Done fresh = .ok (some 2) w1 ∧ w1.c.done = some 2) ∧
    (∃ w1, signalCtx.cancel (some .canceled) fresh = .ok () w1 ∧
      ∃ w3, signalCtx.Done (run [.Err, .Done] w1) = .ok closedchan w3) := by
  obtain ⟨-, ⟨w1, h1, h2, -⟩, ⟨w2, h3, -, -, -, w3, h4, -⟩⟩ :=
    Done_lazy fresh fresh_reachable rfl .canceled [.Err, .Done]
  exact ⟨fresh_reachable, rfl, ⟨w1, h1, h2⟩, ⟨w2, h3, w3, h4⟩⟩

/-- C6: for a wrapper built by `WithCancelBySignal(parent, sig...)` and any
operations on it, the operating-system-facing effects so far are none while the
wrapper is not canceled and exactly `signal.Reset(sig...)` followed by
`close(ch)` once it is; the signal channel is closed exactly when `err` is set,
and then it has no subscription left; every `cancel(e)` with a non-nil `e`
returns, adding both effects in that order when it sets `err` and none when
`err` was set; so any sequence of such calls from the fresh wrapper returns
with no effects if it is empty and with exactly the two otherwise. -/
theorem revoke_before_close (rt : Runtime) (hrt : rt.WF) (parent : Option Ctx)
    (sig : List Signal) (ops : List Op) (w0 : World)
    (h0 : WithCancelBySignal parent sig rt = .ok w0) :
    osEffects (run ops w0).c.ch (run ops w0).trace
      = (if (run ops w0).c.err = none then [] else [.reset sig, .close (run ops w0).c.ch]) ∧
    (chClosed (run ops w0) = true ↔ (run ops w0).c.err ≠ none) ∧
    (chClosed (run ops w0) = true → subscribed (run ops w0) = false) ∧
    (∀ e : GoError, ∃ w1, signalCtx.cancel (some e) (run ops w0) = .ok () w1 ∧
      osEffects (run ops w0).c.ch (newEvents (run ops w0) w1)
        = (if (run ops w0).c.err = none then [.reset sig, .close (run ops w0).c.ch] else [])) ∧
    (∀ es : List GoError, ∃ w1, cancelAll es w0 = .ok () w1 ∧
      osEffects w0.c.ch w1.trace
        = (if es = [] then [] else [.reset sig, .close w0.c.ch])) := by
  obtain ⟨p, -, hw0⟩ := WithCancelBySignal_eq parent sig rt w0 h0
  have hi0 : Inv w0 := hw0 ▸ Inv_freshPost p sig rt hrt
  have hsig0 : w0.c.sig = sig := by rw [hw0]; rfl
  have h1 := run_inv ops w0 hi0
  have hi := h1.1
  have hsig : (run ops w0).c.sig = sig := by rw [h1.2.1, hsig0]
  have key : ∀ (w : World), Inv w → w.c.sig = sig → ∀ e : GoError,
      osEffects w.c.ch (newEvents w (cancelPost e w))
        = (if w.c.err = none then [.reset sig, .close w.c.ch] else []) := by
    intro w hw hs e
    obtain ⟨a, hch, -, -, hne⟩ := hw.ch
    unfold cancelPost
    cases he : w.c.err with
    | some e0 =>
      rw [newEvents_append w _ _ rfl]
      simp [osEffects, isOSEffect]
    | none =>
      cases hd : w.c.done with
      | none =>
        rw [newEvents_append w _ _ rfl]
        simp [osEffects, isOSEffect, hs]
      | some d =>
        have hda : d ≠ a := fun h => hne (by rw [hd, h])
        rw [newEvents_append w _ _ rfl]
        simp [osEffects, isOSEffect, hs, hch, hda]
  refine ⟨?_, hi.chClosed_iff, hi.not_subscribed, ?_, ?_⟩
  · rw [hi.eff, hsig]
  · intro e
    exact ⟨cancelPost e _, cancel_eq _ hi e, key _ hi hsig e⟩
  · intro es
    refine ⟨_, cancelAll_eq es w0 hi0, ?_⟩
    have h2 := run_inv (es.map (fun x => Op.cancel (some x))) w0 hi0
    have h3 := h2.1.eff
    rw [h2.2.2.1, h2.2.1, hsig0] at h3
    rw [h3]
    cases es with
    | nil => simp [run, hw0, freshPost]
    | cons e es =>
      have h4 := step_inv w0 hi0 (.cancel (some e))
      have h5 : (step (.cancel (some e)) w0).c.err = some e := by
        rw [step_eq w0 hi0]
        exact cancelPost_err e w0 (by rw [hw0]; rfl)
      have h6 := (run_inv (es.map (fun x => Op.cancel (some x))) _ h4.1).2.2.2.2.1 e h5
      have h7 : (run ((e :: es).map (fun x => Op.cancel (some x))) w0).c.err = some e := h6
      rw [h7]
      simp

/-- Instance at a fresh wrapper for signal 2, canceled twice after a `Done()`. -/
theorem revoke_before_close_witness :
    pkgInit.WF ∧ WithCancelBySignal (some { err := none }) [2] pkgInit = .ok fresh ∧
    osEffects (some 1)
        (run [.Done, .cancel SignalReceived, .cancel (some .canceled)] fresh).trace
      = [.reset [2], .close (some 1)] :=
  ⟨pkgInit_WF, rfl, (revoke_before_close pkgInit pkgInit_WF (some { err := none }) [2]
    [.Done, .cancel SignalReceived, .cancel (some .canceled)] fresh rfl).1⟩

/-- C10: with the mutex as explicit state, in every reachable state the mutex
is free, and each of `Done()`, `Err()` and `cancel(e)` (non-nil `e`, canceled
already or not) returns with the mutex free after a trace that keeps the lock
discipline (every access to `done` or `err` lies between the lock and the
unlock) and holds exactly one lock and one unlock; `cancel(nil)` touches
nothing; and the watcher enters its `select` first, with the mutex free, and
keeps the discipline afterwards. -/
theorem lock_discipline (w : World) (hr : Reachable w) :
    w.c.mu = false ∧
    (∃ d w1, signalCtx.Done w = .ok d w1 ∧ w1.c.mu = false ∧
      disciplined false (newEvents w w1) = true ∧
      lockCount (newEvents w w1) = 1 ∧ unlockCount (newEvents w w1) = 1) ∧
    (∃ x w1, signalCtx.Err w = .ok x w1 ∧ w1.c.mu = false ∧
      disciplined false (newEvents w w1) = true ∧
      lockCount (newEvents w w1) = 1 ∧ unlockCount (newEvents w w1) = 1) ∧
    (∀ e : GoError, ∃ w1, signalCtx.cancel (some e) w = .ok () w1 ∧ w1.c.mu = false ∧
      disciplined false (newEvents w w1) = true ∧
      lockCount (newEvents w w1) = 1 ∧ unlockCount (newEvents w w1) = 1) ∧
    newEvents w (signalCtx.cancel none w).world = [] ∧
    (∀ k : SelectCase, k.ready w = true →
      ∃ w1, signalCtx.watch k w = .ok () w1 ∧ w1.c.mu = false ∧
        (newEvents w w1).head? = some .select ∧
        disciplined false (newEvents w w1) = true) := by
  have hi := hr.inv
  refine ⟨hi.mu, ?_, ?_, ?_, ?_, ?_⟩
  · have h := DoneEvents_facts w
    refine ⟨_, DonePost w, Done_eq w hi.mu, (Inv_DonePost w hi).mu, ?_⟩
    rw [newEvents_append w _ _ (DonePost_trace w)]
    exact ⟨h.1, h.2.1, h.2.2.1⟩
  · refine ⟨_, _, Err_eq w hi.mu, hi.mu, ?_⟩
    rw [newEvents_append w _ [.lock, .readErr, .unlock] rfl]
    simp [disciplined, lockStep, lockCount, unlockCount]
  · intro e
    have h := cancelEvents_facts e w.c
    refine ⟨cancelPost e w, cancel_eq w hi e, (Inv_cancelPost w hi e).mu, ?_⟩
    rw [newEvents_append w _ _ (cancelPost_trace e w)]
    exact ⟨h.1, h.2.1, h.2.2.1⟩
  · rw [cancel_nil]
    simp [Result.world, newEvents]
  · intro k hk
    have h := watch_eq w hi k hk
    have h2 := watchEvents_facts k w hk
    refine ⟨watchPost k w, h.1, h.2.mu, ?_⟩
    rw [newEvents_append w _ _ (watchPost_trace k w)]
    exact ⟨h2.2.1, h2.1⟩

/-- Instance at a fresh wrapper whose watcher receives signal 2: the trace of
`watch` starts with `select` and keeps the lock discipline. -/
theorem lock_discipline_witness :
    Reachable fresh ∧ (SelectCase.sigRecv 2).ready fresh = true ∧
    ∃ w1, signalCtx.watch (.sigRecv 2) fresh = .ok () w1 ∧ w1.c.mu = false ∧
      (newEvents fresh w1).head? = some .select ∧
      disciplined false (newEvents fresh w1) = true :=
  ⟨fresh_reachable, by decide,
    (lock_discipline fresh fresh_reachable).2.2.2.2.2 (.sigRecv 2) (by decide)⟩

/-- C8: counting the calls of `c.ctxCancel()` that the wrapper's own methods
make (the caller's use of the returned function is the operation `cancelFunc`,
not such a call): when the watcher passes its `select` it makes one call on
the signal case and none on the parent-done case; on the signal case of a
wrapper not yet canceled the call comes before `SignalReceived` is written to
`err`, so the derived context is canceled when `err` is set; `Done()`, `Err()`
and `cancel(e)` make no call; and over the whole life of a wrapper at most one
call is made, none while the watcher is still waiting. -/
theorem ctxCancel_once (w : World) (hr : Reachable w) (k : SelectCase)
    (hk : k.ready w = true) :
    (∃ w1, signalCtx.watch k w = .ok () w1 ∧
      ctxCancelCount (newEvents w w1) = (match k with | .ctxDone => 0 | .sigRecv _ => 1) ∧
      (w.c.err = none → ∀ s, k = .sigRecv s →
        (newEvents w w1).take 5
          = [.select, .ctxCancel, .lock, .readErr, .writeErr SignalReceived] ∧
        w1.c.err = SignalReceived ∧ w1.c.Context.err ≠ none)) ∧
    (∃ d w1, signalCtx.Done w = .ok d w1 ∧ ctxCancelCount (newEvents w w1) = 0) ∧
    (∃ x w1, signalCtx.Err w = .ok x w1 ∧ ctxCancelCount (newEvents w w1) = 0) ∧
    (∀ e : GoError, ∃ w1, signalCtx.cancel (some e) w = .ok () w1 ∧
      ctxCancelCount (newEvents w w1) = 0) ∧
    ctxCancelCount w.trace ≤ 1 ∧ (w.watcher = true → ctxCancelCount w.trace = 0) := by
  have hi := hr.inv
  have hc := hr.cnt
  refine ⟨?_, ?_, ?_, ?_, hc.1, hc.2⟩
  · have h := watch_eq w hi k hk
    have h2 := watchEvents_facts k w hk
    refine ⟨watchPost k w, h.1, ?_, ?_⟩
    · rw [newEvents_append w _ _ (watchPost_trace k w)]
      exact h2.2.2
    · intro he s hs
      subst hs
      rw [newEvents_append w _ _ (watchPost_trace _ w)]
      refine ⟨?_, ?_, ?_⟩
      · simp only [watchEvents, cancelEvents, he]
        cases w.c.done <;> rfl
      · exact cancelPost_err _ _ he
      · have h3 := (Stable_cancelPost .signalReceived
          { w with c := { w.c with Context := cancelFunc w.c.Context },
                   trace := w.trace ++ [.select, .ctxCancel] }).2.2.2.2
        cases hx : w.c.Context.err with
        | none =>
          have h4 := h3 .canceled (cancelFunc_none _ hx)
          show (watchPost (.sigRecv s) w).c.Context.err ≠ none
          unfold watchPost
          rw [h4]
          simp
        | some e0 =>
          have h4 := h3 e0 (by
            show (cancelFunc w.c.Context).err = some e0
            rw [cancelFunc_some _ e0 hx]; exact hx)
          show (watchPost (.sigRecv s) w).c.Context.err ≠ none
          unfold watchPost
          rw [h4]
          simp
  · refine ⟨_, DonePost w, Done_eq w hi.mu, ?_⟩
    rw [newEvents_append w _ _ (DonePost_trace w)]
    exact (DoneEvents_facts w).2.2.2
  · refine ⟨_, _, Err_eq w hi.mu, ?_⟩
    rw [newEvents_append w _ [.lock, .readErr, .unlock] rfl]
    simp [ctxCancelCount]
  · intro e
    refine ⟨cancelPost e w, cancel_eq w hi e, ?_⟩
    rw [newEvents_append w _ _ (cancelPost_trace e w)]
    exact (cancelEvents_facts e w.c).2.2.2

/-- Instance at a fresh wrapper whose watcher receives signal 2: one call of
`c.ctxCancel()`, made before `err` is written. -/
theorem ctxCancel_once_witness :
    Reachable fresh ∧ (SelectCase.sigRecv 2).ready fresh = true ∧
    ∃ w1, signalCtx.watch (.sigRecv 2) fresh = .ok () w1 ∧
      ctxCancelCount (newEvents fresh w1) = 1 ∧
      (newEvents fresh w1).take 5
        = [.select, .ctxCancel, .lock, .readErr, .writeErr SignalReceived] ∧
      w1.c.err = SignalReceived ∧ w1.c.Context.err ≠ none := by
  obtain ⟨w1, h1, h2, h3⟩ :=
    (ctxCancel_once fresh fresh_reachable (.sigRecv 2) (by decide)).1
  exact ⟨fresh_reachable, by decide, w1, h1, h2, h3 rfl 2 rfl⟩

/-- C1: in a reachable state that is not yet canceled `Err()` returns nil, and
the watcher passing its `select` returns and sets the terminal error by the
case taken: on the parent-done case `Err()` then returns the derived context's
own `Err()` value, on the signal case it returns `SignalReceived`; and in a
wrapper used from outside the package `err` is only ever nil, `SignalReceived`
or the derived context's error, and `Err()` returns nil as long as the watcher
has not made its transition. -/
theorem watch_records_cause (w : World) (hr : Reachable w) (k : SelectCase) :
    (w.c.err = none → k.ready w = true →
      (∃ w0, signalCtx.Err w = .ok none w0) ∧
      ∃ w1 w2, signalCtx.watch k w = .ok () w1 ∧
        signalCtx.Err w1 = .ok (k.cause w1.c.Context) w2 ∧
        w1.c.err ≠ none ∧ (k = .ctxDone → w1.c.Context.err = w.c.Context.err)) ∧
    (ReachableExternally w →
      (w.c.err = none ∨ w.c.err = SignalReceived ∨ w.c.err = w.c.Context.err) ∧
      (w.watcher = true → ∃ w0, signalCtx.Err w = .ok none w0)) := by
  have hi := hr.inv
  refine ⟨fun he hk => ⟨?_, ?_⟩, fun hx => ⟨hx.ext.1, fun hw => ?_⟩⟩
  · have h := Err_eq w hi.mu
    rw [he] at h
    exact ⟨_, h⟩
  · have h := watch_eq w hi k hk
    have h1 := watchPost_err k w he hk
    have h2 := Err_eq _ h.2.mu
    have h3 : k.cause w.c.Context = k.cause (watchPost k w).c.Context := by
      cases k with
      | ctxDone => simp only [SelectCase.cause, h1.2.2 rfl]
      | sigRecv s => rfl
    rw [h1.1, h3] at h2
    exact ⟨watchPost k w, _, h.1, h2, h1.2.1, h1.2.2⟩
  · have h := Err_eq w hi.mu
    rw [hx.ext.2 hw] at h
    exact ⟨_, h⟩

/-- Instance at a fresh wrapper whose parent then finishes with its own cause:
the watcher records that cause. -/
theorem watch_records_cause_witness :
    Reachable (run [.parentDone (.other 3)] fresh) ∧
    (∃ w1 w2, signalCtx.watch .ctxDone (run [.parentDone (.other 3)] fresh) = .ok () w1 ∧
      signalCtx.Err w1 = .ok (SelectCase.ctxDone.cause w1.c.Context) w2 ∧
      w1.c.err ≠ none ∧
      (SelectCase.ctxDone = .ctxDone →
        w1.c.Context.err = (run [.parentDone (.other 3)] fresh).c.Context.err)) ∧
    ReachableExternally (run [.parentDone (.other 3)] fresh) ∧
    ∃ w0, signalCtx.Err (run [.parentDone (.other 3)] fresh) = .ok none w0 := by
  have h := watch_records_cause (run [.parentDone (.other 3)] fresh)
    (fresh_reachable.after_run _) .ctxDone
  exact ⟨fresh_reachable.after_run _, (h.1 rfl rfl).2, fresh_parentDone_external,
    (h.2 fresh_parentDone_external).2 rfl⟩

/-- C7: in a reachable state where neither the derived context nor the wrapper
is canceled, invoking the returned cancel function once or more has the effect
of invoking it once: the derived context's error becomes `context.Canceled`,
the parent-done case of the watcher's `select` is ready, the watcher taking
it returns, and `Err()` then returns `context.Canceled`, which is not
`SignalReceived`; a further invocation, before or after the watcher ran,
changes nothing. -/
theorem explicit_cancel_is_parent_cause (w : World) (hr : Reachable w)
    (hctx : w.c.Context.err = none) (he : w.c.err = none) (n : Nat) :
    run (List.replicate (n + 1) Op.cancelFunc) w = step .cancelFunc w ∧
    (step .cancelFunc w).c.Context.err = some .canceled ∧
    SelectCase.ctxDone.ready (step .cancelFunc w) = true ∧
    step .cancelFunc (step .cancelFunc w) = step .cancelFunc w ∧
    some GoError.canceled ≠ SignalReceived ∧
    ∃ w1 w2, signalCtx.watch .ctxDone (step .cancelFunc w) = .ok () w1 ∧
      signalCtx.Err w1 = .ok (some .canceled) w2 ∧
      step .cancelFunc w1 = w1 := by
  have hr1 := hr.after_step .cancelFunc
  have hi1 := hr1.inv
  have hc : (step .cancelFunc w).c.Context.err = some .canceled := cancelFunc_none _ hctx
  have hk : SelectCase.ctxDone.ready (step .cancelFunc w) = true := by
    show (step .cancelFunc w).c.Context.err.isSome = true
    rw [hc]; rfl
  have he1 : (step .cancelFunc w).c.err = none := he
  have h := watch_eq _ hi1 .ctxDone hk
  have h1 := watchPost_err .ctxDone _ he1 hk
  have h2 := Err_eq _ h.2.mu
  have h3 : (watchPost .ctxDone (step .cancelFunc w)).c.Context.err = some .canceled := by
    rw [h1.2.2 rfl, hc]
  have h4 : SelectCase.ctxDone.cause (step .cancelFunc w).c.Context = some .canceled := hc
  rw [h1.1, h4] at h2
  refine ⟨run_cancelFunc n w, hc, hk, ?_, by simp [SignalReceived], _, _, h.1, h2, ?_⟩
  · simp [step, cancelFunc_idem]
  · show { watchPost .ctxDone (step .cancelFunc w) with
        c := { (watchPost .ctxDone (step .cancelFunc w)).c with
          Context := cancelFunc (watchPost .ctxDone (step .cancelFunc w)).c.Context } } = _
    rw [cancelFunc_some _ .canceled h3]

/-- Instance at a fresh wrapper on which the returned cancel function is invoked
three times. -/
theorem explicit_cancel_is_parent_cause_witness :
    Reachable fresh ∧ fresh.c.Context.err = none ∧ fresh.c.err = none ∧
    run (List.replicate (2 + 1) Op.cancelFunc) fresh = step .cancelFunc fresh ∧
    ∃ w1 w2, signalCtx.watch .ctxDone (step .cancelFunc fresh) = .ok () w1 ∧
      signalCtx.Err w1 = .ok (some .canceled) w2 ∧
      step .cancelFunc w1 = w1 := by
  have h := explicit_cancel_is_parent_cause fresh fresh_reachable rfl rfl 2
  exact ⟨fresh_reachable, rfl, rfl, h.1, h.2.2.2.2.2⟩

end Sigctx
